import Mathlib

/-!
Verification of the timeslot interval store of `src/src/App.tsx` (repository
Raais/timeslots).  The TypeScript source is shallowly embedded: JavaScript
numbers holding integer quantities become `Int` (with explicit 32-bit wrapping
where the source relies on JS bitwise-operator semantics), arrays become
`List`, thrown exceptions become `Except` values, and the JSON blob kept in
`localStorage` becomes an explicit `JsonValue` argument/result.
-/

/-- A parsed JSON value, as produced by `JSON.parse` on the persisted blob.
Numbers are modelled as integers (the store only ever persists integer
seconds and date components). -/
inductive JsonValue where
  | null
  | bool (b : Bool)
  | num (n : Int)
  | str (s : String)
  | arr (items : List JsonValue)
  | obj (fields : List (String × JsonValue))
deriving Inhabited

/-- The `meta` object of a timeslot: a required `name` string plus arbitrary
additional fields (`[key: string]: unknown`), modelled as JSON key/value
pairs. -/
structure SlotMeta where
  name : String
  extra : List (String × JsonValue)
deriving Inhabited

/-- `TimeslotRange` from the source: inclusive second-of-day bounds plus
metadata.  The TypeScript field `end` is a reserved word in Lean and is
rendered `end_`. -/
structure TimeslotRange where
  start : Int
  end_ : Int
  meta : SlotMeta
deriving Inhabited

/-- `normalizeRange(start, end)`: swap a reversed pair, then clamp both
components into `[0, 86399]` (`Math.max(0, Math.min(86399, ·))`). -/
def normalizeRange (start end_ : Int) : Int × Int :=
  let s := start
  let e := end_
  let p := if s > e then (e, s) else (s, e)
  (max 0 (min 86399 p.1), max 0 (min 86399 p.2))

/-- The binary-search loop of `addRangeNoOverlap`, generic in how the
`start` value at an index is read (the plain version reads `list[mid].start`,
the reference-semantics version dereferences through the heap).  `fuel`
bounds the number of iterations; the JS loop runs while `lo < hi`, and since
`hi - lo` strictly decreases each iteration, any `fuel ≥ hi - lo` makes the
model exact.  `(lo + hi) >> 1` on JS int32 equals `(lo + hi) / 2` for the
array lengths involved. -/
def bsearchAux (startAt : Nat → Int) (s : Int) : Nat → Nat → Nat → Nat
  | 0, lo, _ => lo
  | fuel + 1, lo, hi =>
    if lo < hi then
      let mid := (lo + hi) / 2
      if startAt mid ≤ s then bsearchAux startAt s fuel (mid + 1) hi
      else bsearchAux startAt s fuel lo mid
    else lo

/-- Insert position used by `addRangeNoOverlap`: index of the first item with
`start > s`, found by binary search over `[0, list.length)`. -/
def findPos (list : List TimeslotRange) (s : Int) : Nat :=
  bsearchAux (fun i => (list.getD i default).start) s list.length 0 list.length

/-- The two merge passes of `addRangeNoOverlap`, operating on the array
`next` (the copy that already holds the freshly inserted entry at index
`pos`).  Merge left: if the left neighbour is contiguous (`a.end + 1 ===
b.start`) and has the same `meta.name`, write `a.end = b.end` and remove the
new entry (`splice(pos, 1)`), decrementing `pos`.  Then symmetrically merge
right. -/
def mergePhase (next : List TimeslotRange) (pos : Nat) : List TimeslotRange :=
  let p :=
    if 0 < pos then
      let a := next.getD (pos - 1) default
      let b := next.getD pos default
      if a.end_ + 1 = b.start ∧ a.meta.name = b.meta.name then
        ((next.set (pos - 1) { a with end_ := b.end_ }).eraseIdx pos, pos - 1)
      else (next, pos)
    else (next, pos)
  let next1 := p.1
  let pos1 := p.2
  if pos1 < next1.length - 1 then
    let a := next1.getD pos1 default
    let b := next1.getD (pos1 + 1) default
    if a.end_ + 1 = b.start ∧ a.meta.name = b.meta.name then
      (next1.set pos1 { a with end_ := b.end_ }).eraseIdx (pos1 + 1)
    else next1
  else next1

/-- `addRangeNoOverlap(list, start, end, meta)`.  The thrown `Error`s become
`Except.error` carrying the source's message strings.  The `TypeError` guard
on `meta` cannot fire here because `SlotMeta.name` is a `String` by type.
The returned value is the contents of the new array `next` (built by
`slice`/`splice` and the two merge passes). -/
def addRangeNoOverlap (list : List TimeslotRange) (start end_ : Int)
    (meta : SlotMeta) : Except String (List TimeslotRange) :=
  let n := normalizeRange start end_
  let s := n.1
  let e := n.2
  let pos := findPos list s
  if 0 < pos ∧ (list.getD (pos - 1) default).end_ ≥ s then
    .error "overlap with previous range"
  else if pos < list.length ∧ (list.getD pos default).start ≤ e then
    .error "overlap with next range"
  else
    .ok (mergePhase (List.insertIdx pos { start := s, end_ := e, meta := meta } list) pos)

/-- Structured view of the two merge passes: the array around the insertion
point is presented as a prefix `l1` (everything with `start ≤ s`), the new
entry `c0`, and a suffix `l2`.  Proved equal to `mergePhase` below; all
invariant reasoning happens against this form. -/
def mergeStep (l1 : List TimeslotRange) (c0 : TimeslotRange)
    (l2 : List TimeslotRange) : List TimeslotRange :=
  let p :=
    match l1.getLast? with
    | some a =>
      if a.end_ + 1 = c0.start ∧ a.meta.name = c0.meta.name then
        (l1.dropLast, { a with end_ := c0.end_ })
      else (l1, c0)
    | none => (l1, c0)
  let l1x := p.1
  let c1 := p.2
  match l2.head? with
  | some b =>
    if c1.end_ + 1 = b.start ∧ c1.meta.name = b.meta.name then
      l1x ++ { c1 with end_ := b.end_ } :: l2.tail
    else l1x ++ c1 :: l2
  | none => l1x ++ c1 :: l2

/-- The store invariant from the spec, 3: every entry is a well-formed
inclusive range (`start ≤ end`) and the entries are pairwise non-overlapping
in order (`a.end < b.start` whenever `a` precedes `b`). -/
def TimeslotsInvariant (l : List TimeslotRange) : Prop :=
  (∀ r ∈ l, r.start ≤ r.end_) ∧ List.Pairwise (fun a b => a.end_ < b.start) l

/-! ### Generic facts about the binary-search loop -/

theorem bsearchAux_le (startAt : Nat → Int) (s : Int) :
    ∀ fuel lo hi, lo ≤ hi → bsearchAux startAt s fuel lo hi ≤ hi := by
  intro fuel
  induction fuel with
  | zero => intro lo hi h; simpa [bsearchAux] using h
  | succ fuel ih =>
    intro lo hi h
    simp only [bsearchAux]
    split
    · split
      · exact ih _ _ (by omega)
      · exact Nat.le_trans (ih _ _ (by omega)) (by omega)
    · exact h

theorem bsearchAux_spec (startAt : Nat → Int) (s : Int) (n : Nat)
    (hsort : ∀ i j, i ≤ j → j < n → startAt i ≤ startAt j) :
    ∀ fuel lo hi, hi - lo ≤ fuel → lo ≤ hi → hi ≤ n →
      (∀ i, i < lo → startAt i ≤ s) →
      (∀ i, hi ≤ i → i < n → s < startAt i) →
      (∀ i, i < bsearchAux startAt s fuel lo hi → startAt i ≤ s) ∧
        (∀ i, bsearchAux startAt s fuel lo hi ≤ i → i < n → s < startAt i) := by
  intro fuel
  induction fuel with
  | zero =>
    intro lo hi hfuel hlohi hhin hlo hhi
    have : lo = hi := by omega
    subst this
    simpa [bsearchAux] using ⟨hlo, hhi⟩
  | succ fuel ih =>
    intro lo hi hfuel hlohi hhin hlo hhi
    simp only [bsearchAux]
    split
    · rename_i hlt
      split
      · rename_i hmid
        refine ih ((lo + hi) / 2 + 1) hi (by omega) (by omega) hhin ?_ hhi
        intro i hi'
        exact le_trans (hsort i ((lo + hi) / 2) (by omega) (by omega)) hmid
      · rename_i hmid
        push_neg at hmid
        refine ih lo ((lo + hi) / 2) (by omega) (by omega) (by omega) hlo ?_
        intro i h1 h2
        exact lt_of_lt_of_le hmid (hsort _ i h1 h2)
    · rename_i hge
      have : lo = hi := by omega
      subst this
      exact ⟨hlo, hhi⟩

/-! ### Index/append helper lemmas -/

theorem getD_append_length {α : Type} [Inhabited α] (l1 : List α) (x : α)
    (l2 : List α) : (l1 ++ x :: l2).getD l1.length default = x := by
  induction l1 with
  | nil => rfl
  | cons y ys ih => simpa using ih

theorem set_append_length {α : Type} (l1 : List α) (x y : α) (l2 : List α) :
    (l1 ++ x :: l2).set l1.length y = l1 ++ y :: l2 := by
  induction l1 with
  | nil => rfl
  | cons z zs ih => simp [ih]

theorem eraseIdx_append_length {α : Type} (l1 : List α) (x : α) (l2 : List α) :
    (l1 ++ x :: l2).eraseIdx l1.length = l1 ++ l2 := by
  induction l1 with
  | nil => rfl
  | cons z zs ih => simpa using ih

theorem insertIdx_append_length {α : Type} (l1 l2 : List α) (x : α) :
    List.insertIdx l1.length x (l1 ++ l2) = l1 ++ x :: l2 := by
  induction l1 with
  | nil => rfl
  | cons z zs ih => simpa [List.insertIdx] using ih

theorem length_takeWhile_eq {α : Type} [Inhabited α] (p : α → Bool) :
    ∀ (l : List α) (m : Nat), m ≤ l.length →
      (∀ i, i < m → p (l.getD i default) = true) →
      (∀ i, i < l.length → m ≤ i → p (l.getD i default) = false) →
      (l.takeWhile p).length = m := by
  intro l
  induction l with
  | nil =>
    intro m hm _ _
    simp only [List.takeWhile_nil, List.length_nil]
    simp only [List.length_nil] at hm
    omega
  | cons x xs ih =>
    intro m hm h1 h2
    match m with
    | 0 =>
      have hx : p x = false := by simpa using h2 0 (by simp) (Nat.zero_le _)
      simp [List.takeWhile_cons, hx]
    | m + 1 =>
      have hx : p x = true := by simpa using h1 0 (Nat.succ_pos _)
      have := ih m (by simpa using hm)
        (fun i hi => by simpa using h1 (i + 1) (by omega))
        (fun i hi hmi => by simpa using h2 (i + 1) (by simpa using hi) (by omega))
      simp [List.takeWhile_cons, hx, this]

theorem head?_dropWhile_false {α : Type} (p : α → Bool) :
    ∀ (l : List α) (b : α), (l.dropWhile p).head? = some b → p b = false := by
  intro l
  induction l with
  | nil => intro b h; simp [List.dropWhile] at h
  | cons x xs ih =>
    intro b h
    by_cases hx : p x = true
    · exact ih b (by simpa [List.dropWhile_cons, hx] using h)
    · rw [List.dropWhile_cons, if_neg (by simpa using hx)] at h
      simp only [List.head?_cons, Option.some.injEq] at h
      rw [← h]
      simpa using hx

/-! ### Facts about the invariant -/

theorem invariant_sorted {l : List TimeslotRange} (h : TimeslotsInvariant l) :
    List.Pairwise (fun a b => a.start < b.start) l := by
  rcases h with ⟨hwf, hpair⟩
  exact hpair.imp_of_mem (fun ha hb hr => lt_of_le_of_lt (hwf _ ha) hr)

theorem invariant_sorted_le {l : List TimeslotRange} (h : TimeslotsInvariant l) :
    ∀ i j, i ≤ j → j < l.length →
      (l.getD i default).start ≤ (l.getD j default).start := by
  intro i j hij hj
  rcases Nat.eq_or_lt_of_le hij with rfl | hlt
  · exact le_refl _
  · have hi : i < l.length := lt_trans hlt hj
    rw [List.getD_eq_getElem l default hi, List.getD_eq_getElem l default hj]
    exact le_of_lt (List.pairwise_iff_getElem.mp (invariant_sorted h) i j hi hj hlt)

/-- On an invariant-satisfying list, the binary search lands exactly after the
block of entries with `start ≤ s`. -/
theorem findPos_eq_takeWhile {l : List TimeslotRange} (h : TimeslotsInvariant l)
    (s : Int) :
    findPos l s = (l.takeWhile (fun r => decide (r.start ≤ s))).length := by
  have hspec := bsearchAux_spec (fun i => (l.getD i default).start) s l.length
    (invariant_sorted_le h) l.length 0 l.length (by omega) (Nat.zero_le _)
    (le_refl _) (by omega) (by omega)
  have hle : findPos l s ≤ l.length :=
    bsearchAux_le _ _ _ _ _ (Nat.zero_le _)
  refine (length_takeWhile_eq _ l (findPos l s) hle ?_ ?_).symm
  · intro i hi
    exact decide_eq_true (hspec.1 i hi)
  · intro i hi hpi
    exact decide_eq_false (not_le.mpr (hspec.2 i hpi hi))

theorem getD_append_length_succ {α : Type} [Inhabited α] (L : List α) (a x : α)
    (l2 : List α) : (L ++ a :: x :: l2).getD (L.length + 1) default = x := by
  have h := getD_append_length (L ++ [a]) x l2
  simpa using h

theorem getD_append_length_succ2 {α : Type} [Inhabited α] (L : List α) (a b x : α)
    (l2 : List α) : (L ++ a :: b :: x :: l2).getD (L.length + 2) default = x := by
  have h := getD_append_length (L ++ [a, b]) x l2
  simpa [Nat.add_assoc] using h

theorem set_append_length_succ {α : Type} (L : List α) (a x y : α) (l2 : List α) :
    (L ++ a :: x :: l2).set (L.length + 1) y = L ++ a :: y :: l2 := by
  simp [List.set_append]

theorem eraseIdx_append_length_succ {α : Type} (L : List α) (a x : α) (l2 : List α) :
    (L ++ a :: x :: l2).eraseIdx (L.length + 1) = L ++ a :: l2 := by
  have h := eraseIdx_append_length (L ++ [a]) x l2
  simpa using h

theorem eraseIdx_append_length_succ2 {α : Type} (L : List α) (a b x : α) (l2 : List α) :
    (L ++ a :: b :: x :: l2).eraseIdx (L.length + 2) = L ++ a :: b :: l2 := by
  have h := eraseIdx_append_length (L ++ [a, b]) x l2
  simpa [Nat.add_assoc] using h


/-- The index-based merge passes, applied to the freshly spliced array
`l1 ++ c :: l2` at position `l1.length`, compute exactly the structured
`mergeStep`. -/
theorem mergePhase_eq_mergeStep (l1 l2 : List TimeslotRange) (c : TimeslotRange) :
    mergePhase (l1 ++ c :: l2) l1.length = mergeStep l1 c l2 := by
  rcases List.eq_nil_or_concat l1 with rfl | ⟨L, a, rfl⟩
  · -- no left neighbour
    simp only [mergePhase, mergeStep, List.nil_append, List.length_nil,
      Nat.lt_irrefl, if_false, List.getLast?_nil]
    cases l2 with
    | nil => simp
    | cons b t =>
      simp only [List.length_cons, List.head?_cons, List.getD_cons_zero,
        List.getD_cons_succ, List.tail_cons, Nat.add_sub_cancel]
      by_cases hc : c.end_ + 1 = b.start ∧ c.meta.name = b.meta.name
      · simp [hc, List.set]
      · simp [hc, Nat.lt_succ_iff]
  · rw [List.concat_eq_append]
    have hlist : (L ++ [a]) ++ c :: l2 = L ++ a :: c :: l2 := by simp
    have hlen : (L ++ [a]).length = L.length + 1 := by simp
    rw [hlist, hlen]
    by_cases hL : a.end_ + 1 = c.start ∧ a.meta.name = c.meta.name
    · -- left merge happens
      simp only [mergePhase, mergeStep, Nat.succ_pos, if_true, Nat.add_sub_cancel,
        getD_append_length, getD_append_length_succ, List.getLast?_concat,
        List.dropLast_concat, if_pos hL, set_append_length,
        eraseIdx_append_length_succ]
      cases l2 with
      | nil =>
        simp
      | cons b t =>
        rw [if_pos (by simp [List.length_append])]
        simp only [getD_append_length, getD_append_length_succ, List.head?_cons,
          List.tail_cons]
        by_cases hR : c.end_ + 1 = b.start ∧ a.meta.name = b.meta.name
        · rw [if_pos (by simpa using hR), if_pos (by simpa using hR)]
          simp only [set_append_length, eraseIdx_append_length_succ]
        · rw [if_neg (by simpa using hR), if_neg (by simpa using hR)]
    · -- no left merge
      simp only [mergePhase, mergeStep, Nat.succ_pos, if_true, Nat.add_sub_cancel,
        getD_append_length, getD_append_length_succ, List.getLast?_concat,
        List.dropLast_concat, if_neg hL]
      cases l2 with
      | nil =>
        rw [if_neg (by simp [List.length_append])]
        simp
      | cons b t =>
        rw [if_pos (by simp [List.length_append])]
        simp only [getD_append_length_succ, getD_append_length_succ2,
          List.head?_cons, List.tail_cons]
        by_cases hR : c.end_ + 1 = b.start ∧ c.meta.name = b.meta.name
        · rw [if_pos hR, if_pos hR]
          simp only [set_append_length_succ, eraseIdx_append_length_succ2]
          simp
        · rw [if_neg hR, if_neg hR]
          simp

/-- Master decomposition of `addRangeNoOverlap` on an invariant list: split
the list into `l1` (entries with `start ≤ s`) and `l2` (the rest); the
overlap checks test exactly `l1`'s last entry and `l2`'s head, and a
successful insert computes `mergeStep l1 ⟨s, e, m⟩ l2`. -/
theorem addRangeNoOverlap_decomp (list l1 l2 : List TimeslotRange)
    (start0 end0 s e : Int) (m : SlotMeta) (hinv : TimeslotsInvariant list)
    (hse : normalizeRange start0 end0 = (s, e))
    (hl1 : l1 = list.takeWhile (fun r => decide (r.start ≤ s)))
    (hl2 : l2 = list.dropWhile (fun r => decide (r.start ≤ s))) :
    list = l1 ++ l2
    ∧ (∀ r ∈ l1, r.start ≤ s)
    ∧ (∀ b ∈ l2.head?, s < b.start)
    ∧ ((∃ a ∈ l1.getLast?, s ≤ a.end_) →
        addRangeNoOverlap list start0 end0 m = .error "overlap with previous range")
    ∧ ((∀ a ∈ l1.getLast?, a.end_ < s) → (∃ b ∈ l2.head?, b.start ≤ e) →
        addRangeNoOverlap list start0 end0 m = .error "overlap with next range")
    ∧ ((∀ a ∈ l1.getLast?, a.end_ < s) → (∀ b ∈ l2.head?, e < b.start) →
        addRangeNoOverlap list start0 end0 m =
          .ok (mergeStep l1 { start := s, end_ := e, meta := m } l2)) := by
  have hsplit : list = l1 ++ l2 := by
    rw [hl1, hl2, List.takeWhile_append_dropWhile]
  have hpos : findPos list s = l1.length := by
    rw [hl1, findPos_eq_takeWhile hinv]
  have harr : addRangeNoOverlap list start0 end0 m =
      if 0 < l1.length ∧ (list.getD (l1.length - 1) default).end_ ≥ s then
        .error "overlap with previous range"
      else if l1.length < list.length ∧ (list.getD l1.length default).start ≤ e then
        .error "overlap with next range"
      else
        .ok (mergePhase (List.insertIdx l1.length { start := s, end_ := e, meta := m } list)
              l1.length) := by
    simp only [addRangeNoOverlap, hse, hpos]
  have hgetLast : ∀ a, l1.getLast? = some a →
      list.getD (l1.length - 1) default = a ∧ 0 < l1.length := by
    intro a ha
    rcases List.getLast?_eq_some_iff.mp ha with ⟨L, hL⟩
    constructor
    · rw [hsplit, hL]
      have h2 : (L ++ [a]) ++ l2 = L ++ a :: l2 := by simp
      have hlen : (L ++ [a]).length - 1 = L.length := by simp
      rw [h2, hlen]
      exact getD_append_length L a l2
    · rw [hL]; simp
  have hgetHead : ∀ b t, l2 = b :: t →
      list.getD l1.length default = b ∧ l1.length < list.length := by
    intro b t hbt
    constructor
    · rw [hsplit, hbt]
      exact getD_append_length l1 b t
    · rw [hsplit, hbt]
      simp
  have hprevneg : (∀ a ∈ l1.getLast?, a.end_ < s) →
      ¬(0 < l1.length ∧ (list.getD (l1.length - 1) default).end_ ≥ s) := by
    intro hnp
    cases hcase : l1.getLast? with
    | none =>
      have : l1 = [] := List.getLast?_eq_none_iff.mp hcase
      rw [this]
      simp
    | some a =>
      have hae := hnp a (by rw [Option.mem_def, hcase])
      rcases hgetLast a hcase with ⟨hgd, -⟩
      rw [hgd]
      intro hcon
      omega
  refine ⟨hsplit, ?_, ?_, ?_, ?_, ?_⟩
  · intro r hr
    rw [hl1] at hr
    have h2 := List.mem_takeWhile_imp hr
    simp only [decide_eq_true_eq] at h2
    exact h2
  · intro b hb
    rw [Option.mem_def] at hb
    rw [hl2] at hb
    have := head?_dropWhile_false _ list b hb
    exact lt_of_not_le (of_decide_eq_false this)
  · rintro ⟨a, ha, hsa⟩
    rw [Option.mem_def] at ha
    rcases hgetLast a ha with ⟨hgd, hlen⟩
    rw [harr, if_pos ⟨hlen, by rw [hgd]; exact hsa⟩]
  · intro hnoprev
    rintro ⟨b, hb, hbe⟩
    rw [Option.mem_def] at hb
    cases hcase : l2 with
    | nil => rw [hcase] at hb; simp at hb
    | cons b0 t =>
      rw [hcase] at hb
      simp only [List.head?_cons, Option.some.injEq] at hb
      rcases hgetHead b0 t hcase with ⟨hgd, hlen⟩
      rw [harr, if_neg (hprevneg hnoprev),
        if_pos ⟨hlen, by rw [hgd, hb]; exact hbe⟩]
  · intro hnoprev hnonext
    have hnextneg : ¬(l1.length < list.length ∧ (list.getD l1.length default).start ≤ e) := by
      cases hcase : l2 with
      | nil =>
        intro hcon
        rcases hcon with ⟨hcon1, -⟩
        rw [hsplit, hcase] at hcon1
        simp at hcon1
      | cons b t =>
        have hbe := hnonext b (by rw [hcase]; simp)
        rcases hgetHead b t hcase with ⟨hgd, -⟩
        intro hcon
        rcases hcon with ⟨-, hcon2⟩
        rw [hgd] at hcon2
        omega
    rw [harr, if_neg (hprevneg hnoprev), if_neg hnextneg]
    rw [hsplit, insertIdx_append_length, mergePhase_eq_mergeStep]

/-! ### Invariant preservation -/

theorem normalizeRange_spec (a b : Int) :
    0 ≤ (normalizeRange a b).1 ∧ (normalizeRange a b).1 ≤ (normalizeRange a b).2 ∧
      (normalizeRange a b).2 ≤ 86399 := by
  simp only [normalizeRange]
  split <;> simp <;> omega

theorem normalizeRange_eq_of (a b : Int) (h0 : 0 ≤ a) (h1 : a ≤ b)
    (h2 : b ≤ 86399) : normalizeRange a b = (a, b) := by
  simp only [normalizeRange]
  rw [if_neg (by omega)]
  simp only [Prod.mk.injEq]
  constructor <;> omega

theorem normalizeRange_comm (a b : Int) : normalizeRange a b = normalizeRange b a := by
  simp only [normalizeRange]
  rcases lt_trichotomy a b with h | h | h
  · rw [if_neg (by omega), if_pos (by omega)]
  · subst h
    rfl
  · rw [if_pos (by omega), if_neg (by omega)]

theorem all_lt_start_of_last {l1 : List TimeslotRange} {v : Int}
    (hwf : ∀ r ∈ l1, r.start ≤ r.end_)
    (hpw : List.Pairwise (fun a b => a.end_ < b.start) l1)
    (hlast : ∀ a ∈ l1.getLast?, a.end_ < v) :
    ∀ x ∈ l1, x.end_ < v := by
  rcases List.eq_nil_or_concat l1 with rfl | ⟨L, a, rfl⟩
  · simp
  · simp only [List.concat_eq_append] at hwf hpw hlast ⊢
    have ha := hlast a (by rw [Option.mem_def]; exact List.getLast?_concat L)
    intro x hx
    rcases List.mem_append.mp hx with hxL | hxa
    · have hpw2 := List.pairwise_append.mp hpw
      have hxa2 : x.end_ < a.start := hpw2.2.2 x hxL a (by simp)
      have haa : a.start ≤ a.end_ := hwf a (by simp)
      omega
    · have : x = a := by simpa using hxa
      subst this
      exact ha

theorem all_gt_end_of_head {l2 : List TimeslotRange} {v : Int}
    (hwf : ∀ r ∈ l2, r.start ≤ r.end_)
    (hpw : List.Pairwise (fun a b => a.end_ < b.start) l2)
    (hhead : ∀ b ∈ l2.head?, v < b.start) :
    ∀ y ∈ l2, v < y.start := by
  cases l2 with
  | nil => simp
  | cons b t =>
    have hb := hhead b (by simp)
    intro y hy
    rcases List.mem_cons.mp hy with rfl | hyt
    · exact hb
    · rcases List.pairwise_cons.mp hpw with ⟨hbt, -⟩
      have h1 := hbt y hyt
      have h2 : b.start ≤ b.end_ := hwf b (by simp)
      omega

/-- Inserting an entry between the two blocks keeps the invariant, provided
the entry is well formed and strictly clears its two neighbours. -/
theorem invariant_insert (l1 l2 : List TimeslotRange) (c : TimeslotRange)
    (hinv : TimeslotsInvariant (l1 ++ l2))
    (hwfc : c.start ≤ c.end_)
    (hleft : ∀ a ∈ l1.getLast?, a.end_ < c.start)
    (hright : ∀ b ∈ l2.head?, c.end_ < b.start) :
    TimeslotsInvariant (l1 ++ c :: l2) := by
  rcases hinv with ⟨hwf, hpw⟩
  rcases List.pairwise_append.mp hpw with ⟨hpw1, hpw2, hcross⟩
  have hwf1 : ∀ r ∈ l1, r.start ≤ r.end_ :=
    fun r hr => hwf r (List.mem_append.mpr (.inl hr))
  have hwf2 : ∀ r ∈ l2, r.start ≤ r.end_ :=
    fun r hr => hwf r (List.mem_append.mpr (.inr hr))
  have hall1 : ∀ x ∈ l1, x.end_ < c.start := all_lt_start_of_last hwf1 hpw1 hleft
  have hall2 : ∀ y ∈ l2, c.end_ < y.start := all_gt_end_of_head hwf2 hpw2 hright
  constructor
  · intro r hr
    rcases List.mem_append.mp hr with h | h
    · exact hwf1 r h
    · rcases List.mem_cons.mp h with rfl | h
      · exact hwfc
      · exact hwf2 r h
  · rw [List.pairwise_append]
    refine ⟨hpw1, ?_, ?_⟩
    · rw [List.pairwise_cons]
      exact ⟨hall2, hpw2⟩
    · intro x hx y hy
      rcases List.mem_cons.mp hy with rfl | hy2
      · exact hall1 x hx
      · exact hcross x hx y hy2

/-- Collapsing two adjacent contiguous entries into one (`a.end = b.end`,
drop `b`) keeps the invariant. -/
theorem invariant_merge (x y : List TimeslotRange) (a b : TimeslotRange)
    (hinv : TimeslotsInvariant (x ++ a :: b :: y))
    (hab : a.end_ + 1 = b.start) :
    TimeslotsInvariant (x ++ { a with end_ := b.end_ } :: y) := by
  rcases hinv with ⟨hwf, hpw⟩
  rcases List.pairwise_append.mp hpw with ⟨hpwx, hpwaby, hcross⟩
  rcases List.pairwise_cons.mp hpwaby with ⟨ha, hpwby⟩
  rcases List.pairwise_cons.mp hpwby with ⟨hb, hpwy⟩
  have hwfa : a.start ≤ a.end_ := hwf a (by simp)
  have hwfb : b.start ≤ b.end_ := hwf b (by simp)
  constructor
  · intro r hr
    rcases List.mem_append.mp hr with h | h
    · exact hwf r (List.mem_append.mpr (.inl h))
    · rcases List.mem_cons.mp h with rfl | h
      · simp only []
        omega
      · exact hwf r (by simp [h])
  · rw [List.pairwise_append]
    refine ⟨hpwx, ?_, ?_⟩
    · rw [List.pairwise_cons]
      refine ⟨fun z hz => ?_, hpwy⟩
      simpa using hb z hz
    · intro u hu z hz
      rcases List.mem_cons.mp hz with rfl | hz2
      · simpa using hcross u hu a (by simp)
      · exact hcross u hu z (by simp [hz2])

/-- The full merge step keeps the invariant. -/
theorem mergeStep_invariant (l1 l2 : List TimeslotRange) (c : TimeslotRange)
    (hinv : TimeslotsInvariant (l1 ++ l2))
    (hwfc : c.start ≤ c.end_)
    (hleft : ∀ a ∈ l1.getLast?, a.end_ < c.start)
    (hright : ∀ b ∈ l2.head?, c.end_ < b.start) :
    TimeslotsInvariant (mergeStep l1 c l2) := by
  have hbase : TimeslotsInvariant (l1 ++ c :: l2) :=
    invariant_insert l1 l2 c hinv hwfc hleft hright
  cases hcase : l1.getLast? with
  | none =>
    simp only [mergeStep, hcase]
    cases l2 with
    | nil => exact hbase
    | cons b t =>
      simp only [List.head?_cons, List.tail_cons]
      by_cases hR : c.end_ + 1 = b.start ∧ c.meta.name = b.meta.name
      · rw [if_pos hR]
        exact invariant_merge l1 t c b hbase hR.1
      · rw [if_neg hR]
        exact hbase
  | some a =>
    rcases List.getLast?_eq_some_iff.mp hcase with ⟨L, rfl⟩
    simp only [mergeStep, hcase, List.dropLast_concat]
    have hshape : (L ++ [a]) ++ c :: l2 = L ++ a :: c :: l2 := by simp
    by_cases hL : a.end_ + 1 = c.start ∧ a.meta.name = c.meta.name
    · rw [if_pos hL]
      have hmerged : TimeslotsInvariant (L ++ { a with end_ := c.end_ } :: l2) := by
        rw [hshape] at hbase
        exact invariant_merge L l2 a c hbase hL.1
      cases l2 with
      | nil => exact hmerged
      | cons b t =>
        simp only [List.head?_cons, List.tail_cons]
        by_cases hR : c.end_ + 1 = b.start ∧ a.meta.name = b.meta.name
        · rw [if_pos (by simpa using hR)]
          have := invariant_merge L t { a with end_ := c.end_ } b hmerged (by simpa using hR.1)
          simpa using this
        · rw [if_neg (by simpa using hR)]
          exact hmerged
    · rw [if_neg hL]
      cases l2 with
      | nil => exact hbase
      | cons b t =>
        simp only [List.head?_cons, List.tail_cons]
        by_cases hR : c.end_ + 1 = b.start ∧ c.meta.name = b.meta.name
        · rw [if_pos hR]
          rw [hshape] at hbase
          have := invariant_merge (L ++ [a]) t c b (by simpa using hbase) hR.1
          simpa using this
        · rw [if_neg hR]
          exact hbase

/-! ### Claim C1 -/

/-- Claim C1: for every timeslot list that is sorted ascending by `start` and
pairwise non-overlapping, every successful `addRangeNoOverlap` call returns a
list that is again sorted ascending by `start` and pairwise
non-overlapping. -/
theorem c1_insert_preserves_invariant (list : List TimeslotRange)
    (start0 end0 : Int) (m : SlotMeta) (out : List TimeslotRange)
    (hinv : TimeslotsInvariant list)
    (hok : addRangeNoOverlap list start0 end0 m = .ok out) :
    TimeslotsInvariant out ∧ List.Pairwise (fun a b => a.start < b.start) out := by
  rcases hne : normalizeRange start0 end0 with ⟨s, e⟩
  set l1 := list.takeWhile (fun r => decide (r.start ≤ s)) with hl1def
  set l2 := list.dropWhile (fun r => decide (r.start ≤ s)) with hl2def
  have hdec := addRangeNoOverlap_decomp list l1 l2 start0 end0 s e m hinv hne hl1def hl2def
  rcases hdec with ⟨hsplit, -, -, herr1, herr2, hok3⟩
  by_cases h1 : ∃ a ∈ l1.getLast?, s ≤ a.end_
  · rw [herr1 h1] at hok
    simp at hok
  push_neg at h1
  by_cases h2 : ∃ b ∈ l2.head?, b.start ≤ e
  · rw [herr2 h1 h2] at hok
    simp at hok
  push_neg at h2
  rw [hok3 h1 h2] at hok
  have hout : out = mergeStep l1 { start := s, end_ := e, meta := m } l2 := by
    simpa using hok.symm
  subst hout
  have hs_le_e : s ≤ e := by
    have h3 := (normalizeRange_spec start0 end0).2.1
    rw [hne] at h3
    exact h3
  have hinv2 : TimeslotsInvariant (l1 ++ l2) := by
    rw [← hsplit]
    exact hinv
  have hmerged := mergeStep_invariant l1 l2 { start := s, end_ := e, meta := m }
    hinv2 hs_le_e h1 h2
  exact ⟨hmerged, invariant_sorted hmerged⟩

/-- Witness for C1: a concrete successful insert, with the hypotheses
discharged at that input. -/
theorem c1_insert_preserves_invariant_witness :
    TimeslotsInvariant [⟨0, 10, ⟨"a", []⟩⟩]
    ∧ addRangeNoOverlap [⟨0, 10, ⟨"a", []⟩⟩] 20 30 ⟨"b", []⟩ =
        .ok [⟨0, 10, ⟨"a", []⟩⟩, ⟨20, 30, ⟨"b", []⟩⟩]
    ∧ (TimeslotsInvariant [⟨0, 10, ⟨"a", []⟩⟩, ⟨20, 30, ⟨"b", []⟩⟩]
       ∧ List.Pairwise (fun a b : TimeslotRange => a.start < b.start)
           [⟨0, 10, ⟨"a", []⟩⟩, ⟨20, 30, ⟨"b", []⟩⟩]) :=
  ⟨⟨by decide, by decide⟩, rfl,
   c1_insert_preserves_invariant [⟨0, 10, ⟨"a", []⟩⟩] 20 30 ⟨"b", []⟩
     [⟨0, 10, ⟨"a", []⟩⟩, ⟨20, 30, ⟨"b", []⟩⟩] ⟨by decide, by decide⟩ rfl⟩

/-! ### Reference semantics (object identity and aliasing)

JavaScript arrays hold references to mutable objects.  `list.slice()` copies
only the address array, so the entry objects stay shared between the caller's
array and `next`, and the merge passes' `a.end = b.end` assignments mutate
those shared objects in place.  To reason about what the caller's prior
snapshot sees after a call, `addRangeNoOverlap` is also rendered with an
explicit heap: an address is an index into `heap`, and the caller's array is
a list of addresses. -/

def findPosRef (heap : List TimeslotRange) (list : List Nat) (s : Int) : Nat :=
  bsearchAux (fun i => (heap.getD (list.getD i 0) default).start) s
    list.length 0 list.length

/-- Heap-passing version of `addRangeNoOverlap`.  Returns the heap after the
call (the throws happen before any allocation or write, so on error the heap
is returned untouched) together with the error or the new address array. -/
def addRangeNoOverlapRef (heap : List TimeslotRange) (list : List Nat)
    (start end_ : Int) (m : SlotMeta) :
    List TimeslotRange × Except String (List Nat) :=
  let n := normalizeRange start end_
  let s := n.1
  let e := n.2
  let pos := findPosRef heap list s
  if 0 < pos ∧ (heap.getD (list.getD (pos - 1) 0) default).end_ ≥ s then
    (heap, .error "overlap with previous range")
  else if pos < list.length ∧ (heap.getD (list.getD pos 0) default).start ≤ e then
    (heap, .error "overlap with next range")
  else
    let addr := heap.length
    let heap1 := heap ++ [{ start := s, end_ := e, meta := m }]
    let next0 := List.insertIdx pos addr list
    let q : List TimeslotRange × (List Nat × Nat) :=
      if 0 < pos then
        let aAddr := next0.getD (pos - 1) 0
        let bAddr := next0.getD pos 0
        let a := heap1.getD aAddr default
        let b := heap1.getD bAddr default
        if a.end_ + 1 = b.start ∧ a.meta.name = b.meta.name then
          (heap1.set aAddr { a with end_ := b.end_ }, (next0.eraseIdx pos, pos - 1))
        else (heap1, (next0, pos))
      else (heap1, (next0, pos))
    let heap2 := q.1
    let next1 := q.2.1
    let pos1 := q.2.2
    if pos1 < next1.length - 1 then
      let aAddr := next1.getD pos1 0
      let bAddr := next1.getD (pos1 + 1) 0
      let a := heap2.getD aAddr default
      let b := heap2.getD bAddr default
      if a.end_ + 1 = b.start ∧ a.meta.name = b.meta.name then
        (heap2.set aAddr { a with end_ := b.end_ }, .ok (next1.eraseIdx (pos1 + 1)))
      else (heap2, .ok next1)
    else (heap2, .ok next1)

/-- The throws of `addRangeNoOverlap` happen before any write: on error the
heap is unchanged. -/
theorem addRangeNoOverlapRef_error_heap (heap : List TimeslotRange)
    (addrs : List Nat) (start0 end0 : Int) (m : SlotMeta) (err : String)
    (herr : (addRangeNoOverlapRef heap addrs start0 end0 m).2 = .error err) :
    (addRangeNoOverlapRef heap addrs start0 end0 m).1 = heap := by
  revert herr
  simp only [addRangeNoOverlapRef]
  split
  · intro _; rfl
  · split
    · intro _; rfl
    · intro h
      exfalso
      repeat' split at h
      all_goals simp at h

/-! ### Claim C2 -/

/-- Claim C2: on a sorted, pairwise non-overlapping list, `addRangeNoOverlap`
raises an overlap error if and only if the normalized range `[s, e]`
intersects some existing entry (so checking only the two immediate
neighbours of the insertion position detects every overlap), and when it
raises, the caller's data is untouched (the heap of the reference semantics
is returned unchanged). -/
theorem c2_overlap_error_iff (list : List TimeslotRange) (start0 end0 : Int)
    (m : SlotMeta) (hinv : TimeslotsInvariant list) :
    ((∃ err, addRangeNoOverlap list start0 end0 m = .error err) ↔
      (∃ r ∈ list, r.start ≤ (normalizeRange start0 end0).2 ∧
        (normalizeRange start0 end0).1 ≤ r.end_))
    ∧ (∀ heap addrs err,
        (addRangeNoOverlapRef heap addrs start0 end0 m).2 = .error err →
        (addRangeNoOverlapRef heap addrs start0 end0 m).1 = heap) := by
  refine ⟨?_, fun heap addrs err h =>
    addRangeNoOverlapRef_error_heap heap addrs start0 end0 m err h⟩
  obtain ⟨s, e, hne⟩ : ∃ s e, normalizeRange start0 end0 = (s, e) := ⟨_, _, rfl⟩
  rw [hne]
  set l1 := list.takeWhile (fun r => decide (r.start ≤ s)) with hl1def
  set l2 := list.dropWhile (fun r => decide (r.start ≤ s)) with hl2def
  have hdec := addRangeNoOverlap_decomp list l1 l2 start0 end0 s e m hinv hne hl1def hl2def
  rcases hdec with ⟨hsplit, hle, hgt, herr1, herr2, hok3⟩
  have hs_le_e : s ≤ e := by
    have h3 := (normalizeRange_spec start0 end0).2.1
    rw [hne] at h3
    exact h3
  have hwf := hinv.1
  have hpw1 : List.Pairwise (fun a b => a.end_ < b.start) l1 :=
    List.Pairwise.sublist (by rw [hl1def]; exact List.takeWhile_sublist _) hinv.2
  have hpw2 : List.Pairwise (fun a b => a.end_ < b.start) l2 :=
    List.Pairwise.sublist (by rw [hl2def]; exact List.dropWhile_sublist _) hinv.2
  constructor
  · rintro ⟨err, herr⟩
    by_cases h1 : ∃ a ∈ l1.getLast?, s ≤ a.end_
    · rcases h1 with ⟨a, ha, hsa⟩
      rw [Option.mem_def] at ha
      rcases List.getLast?_eq_some_iff.mp ha with ⟨L, hL⟩
      have hamem : a ∈ list := by
        rw [hsplit, hL]
        simp
      have hals : a.start ≤ s := hle a (by rw [hL]; simp)
      refine ⟨a, hamem, ?_, ?_⟩
      · show a.start ≤ e
        omega
      · show s ≤ a.end_
        exact hsa
    · push_neg at h1
      by_cases h2 : ∃ b ∈ l2.head?, b.start ≤ e
      · rcases h2 with ⟨b, hb, hbe⟩
        have hbmem : b ∈ list := by
          rw [hsplit]
          exact List.mem_append.mpr (.inr (List.mem_of_mem_head? hb))
        have hbs : s < b.start := hgt b hb
        have hbwf : b.start ≤ b.end_ := hwf b hbmem
        refine ⟨b, hbmem, ?_, ?_⟩
        · show b.start ≤ e
          exact hbe
        · show s ≤ b.end_
          omega
      · push_neg at h2
        rw [hok3 h1 h2] at herr
        simp at herr
  · rintro ⟨r, hr, hre, hsr⟩
    have hre2 : r.start ≤ e := hre
    have hsr2 : s ≤ r.end_ := hsr
    by_cases h1 : ∃ a ∈ l1.getLast?, s ≤ a.end_
    · exact ⟨_, herr1 h1⟩
    · push_neg at h1
      rw [hsplit] at hr
      rcases List.mem_append.mp hr with hr1 | hr2
      · exfalso
        rcases List.eq_nil_or_concat l1 with hnil | ⟨L, a, hcat⟩
        · rw [hnil] at hr1
          simp at hr1
        · rw [List.concat_eq_append] at hcat
          have ha : l1.getLast? = some a := by
            rw [hcat]
            exact List.getLast?_concat L
          have haend := h1 a (Option.mem_def.mpr ha)
          rw [hcat] at hr1
          rcases List.mem_append.mp hr1 with hrL | hra
          · have hpw1c := hpw1
            rw [hcat] at hpw1c
            have hra2 : r.end_ < a.start :=
              (List.pairwise_append.mp hpw1c).2.2 r hrL a (by simp)
            have hwa : a.start ≤ a.end_ := hwf a (by rw [hsplit, hcat]; simp)
            omega
          · have hreq : r = a := by simpa using hra
            subst hreq
            omega
      · cases hl2case : l2 with
        | nil =>
          rw [hl2case] at hr2
          simp at hr2
        | cons b t =>
          have hb : l2.head? = some b := by rw [hl2case]; simp
          have hbstart : b.start ≤ e := by
            rw [hl2case] at hr2
            rcases List.mem_cons.mp hr2 with rfl | hrt
            · exact hre2
            · have hpw2c := hpw2
              rw [hl2case] at hpw2c
              rcases List.pairwise_cons.mp hpw2c with ⟨hbt, -⟩
              have h4 := hbt r hrt
              have h5 : b.start ≤ b.end_ := hwf b (by rw [hsplit, hl2case]; simp)
              omega
          exact ⟨_, herr2 h1 ⟨b, Option.mem_def.mpr hb, hbstart⟩⟩

/-- Witness for C2 at a concrete input: inserting `[5, 7]` into a store
holding `[0, 10]` is rejected, and indeed the ranges intersect. -/
theorem c2_overlap_error_iff_witness :
    TimeslotsInvariant [⟨0, 10, ⟨"a", []⟩⟩]
    ∧ (((∃ err, addRangeNoOverlap [⟨0, 10, ⟨"a", []⟩⟩] 5 7 ⟨"x", []⟩ = .error err) ↔
        (∃ r ∈ [(⟨0, 10, ⟨"a", []⟩⟩ : TimeslotRange)],
          r.start ≤ (normalizeRange 5 7).2 ∧ (normalizeRange 5 7).1 ≤ r.end_))
       ∧ (∀ heap addrs err,
          (addRangeNoOverlapRef heap addrs 5 7 ⟨"x", []⟩).2 = .error err →
          (addRangeNoOverlapRef heap addrs 5 7 ⟨"x", []⟩).1 = heap)) :=
  ⟨⟨by decide, by decide⟩,
   c2_overlap_error_iff [⟨0, 10, ⟨"a", []⟩⟩] 5 7 ⟨"x", []⟩ ⟨by decide, by decide⟩⟩

/-! ### Claim C7 -/

/-- Claim C7: for every `start ≤ end` within `[0, 86399]`, inserting into the
empty list succeeds and yields exactly the singleton of the (already normal)
input; in general the empty-list insert yields the normalized range, and
normalization swaps reversed endpoints and clamps into `[0, 86399]`. -/
theorem c7_insert_empty (start0 end0 : Int) (m : SlotMeta)
    (h0 : 0 ≤ start0) (h1 : start0 ≤ end0) (h2 : end0 ≤ 86399) :
    addRangeNoOverlap [] start0 end0 m =
      .ok [{ start := start0, end_ := end0, meta := m }]
    ∧ (∀ a b : Int,
        addRangeNoOverlap [] a b m =
          .ok [{ start := (normalizeRange a b).1, end_ := (normalizeRange a b).2,
                 meta := m }]
        ∧ normalizeRange a b = normalizeRange b a
        ∧ 0 ≤ (normalizeRange a b).1
        ∧ (normalizeRange a b).1 ≤ (normalizeRange a b).2
        ∧ (normalizeRange a b).2 ≤ 86399) := by
  have hgen : ∀ a b : Int, addRangeNoOverlap [] a b m =
      .ok [{ start := (normalizeRange a b).1, end_ := (normalizeRange a b).2,
             meta := m }] := by
    intro a b
    simp [addRangeNoOverlap, findPos, bsearchAux, mergePhase, List.insertIdx]
  constructor
  · rw [hgen start0 end0, normalizeRange_eq_of start0 end0 h0 h1 h2]
  · intro a b
    exact ⟨hgen a b, normalizeRange_comm a b, (normalizeRange_spec a b).1,
      (normalizeRange_spec a b).2.1, (normalizeRange_spec a b).2.2⟩

/-- Witness for C7: the example from the spec, `insert([], 0, 3599, focus)`. -/
theorem c7_insert_empty_witness :
    (0 : Int) ≤ 0 ∧ (0 : Int) ≤ 3599 ∧ (3599 : Int) ≤ 86399
    ∧ addRangeNoOverlap [] 0 3599 ⟨"focus", []⟩ =
        .ok [{ start := 0, end_ := 3599, meta := ⟨"focus", []⟩ }] :=
  ⟨by decide, by decide, by decide,
   (c7_insert_empty 0 3599 ⟨"focus", []⟩ (by decide) (by decide) (by decide)).1⟩

/-! ### Claim C3 -/

theorem takeWhile_all_append {α : Type} (p : α → Bool) (L M : List α)
    (hL : ∀ r ∈ L, p r = true) :
    (L ++ M).takeWhile p = L ++ M.takeWhile p
    ∧ (L ++ M).dropWhile p = M.dropWhile p := by
  induction L with
  | nil => simp
  | cons x xs ih =>
    have hx := hL x (by simp)
    have ih2 := ih (fun r hr => hL r (by simp [hr]))
    simp [List.takeWhile_cons, List.dropWhile_cons, hx, ih2.1, ih2.2]

/-- Counterexample to C3 as universally stated: if the entry following `a` is
itself contiguous with the inserted range and carries the same name, the
insert merges THREE ranges, not two — the result is `[a.start, next.end]`
rather than the claimed single entry `[a.start, x]` next to an untouched
neighbour. -/
theorem c3_counterexample :
    addRangeNoOverlap [⟨0, 10, ⟨"n", []⟩⟩, ⟨21, 30, ⟨"n", []⟩⟩] 11 20 ⟨"n", []⟩ =
      .ok [⟨0, 30, ⟨"n", []⟩⟩]
    ∧ addRangeNoOverlap [⟨0, 10, ⟨"n", []⟩⟩, ⟨21, 30, ⟨"n", []⟩⟩] 11 20 ⟨"n", []⟩ ≠
      .ok [⟨0, 20, ⟨"n", []⟩⟩, ⟨21, 30, ⟨"n", []⟩⟩] := by
  have h1 : addRangeNoOverlap [⟨0, 10, ⟨"n", []⟩⟩, ⟨21, 30, ⟨"n", []⟩⟩] 11 20 ⟨"n", []⟩ =
      .ok [⟨0, 30, ⟨"n", []⟩⟩] := rfl
  refine ⟨h1, ?_⟩
  rw [h1]
  intro hcon
  simp at hcon

/-- Claim C3 (amended): in a sorted, non-overlapping list containing `a`,
inserting `[a.end + 1, x]` — with the range inside `[0, 86399]` and, when `a`
has a successor, `x + 1` strictly below its `start` (so the new range neither
overlaps nor touches it) — merges with `a` into the single entry
`[a.start, x]` carrying the surviving entry `a`'s meta when the names agree,
and stays a separate, touching entry when the names differ. -/
theorem c3_merge_same_name (l1 l2 : List TimeslotRange) (a : TimeslotRange)
    (x : Int) (m : SlotMeta)
    (hinv : TimeslotsInvariant (l1 ++ a :: l2))
    (ha0 : 0 ≤ a.start)
    (hx1 : a.end_ + 1 ≤ x) (hx2 : x ≤ 86399)
    (hl2 : ∀ b ∈ l2.head?, x + 1 < b.start) :
    (m.name = a.meta.name →
      addRangeNoOverlap (l1 ++ a :: l2) (a.end_ + 1) x m =
        .ok (l1 ++ { start := a.start, end_ := x, meta := a.meta } :: l2))
    ∧ (m.name ≠ a.meta.name →
      addRangeNoOverlap (l1 ++ a :: l2) (a.end_ + 1) x m =
        .ok (l1 ++ a :: { start := a.end_ + 1, end_ := x, meta := m } :: l2)) := by
  have hwfa : a.start ≤ a.end_ := hinv.1 a (by simp)
  have hne : normalizeRange (a.end_ + 1) x = (a.end_ + 1, x) :=
    normalizeRange_eq_of _ _ (by omega) hx1 hx2
  -- the takeWhile block is exactly l1 ++ [a]
  have hall : ∀ r ∈ l1 ++ [a], (fun r => decide (r.start ≤ a.end_ + 1)) r = true := by
    intro r hr
    rcases List.mem_append.mp hr with hr1 | hr2
    · have h3 : r.end_ < a.start :=
        (List.pairwise_append.mp hinv.2).2.2 r hr1 a (by simp)
      have h4 : r.start ≤ r.end_ := hinv.1 r (by simp [hr1])
      simp only [decide_eq_true_eq]
      omega
    · have : r = a := by simpa using hr2
      subst this
      simp only [decide_eq_true_eq]
      omega
  have htail : l2.takeWhile (fun r => decide (r.start ≤ a.end_ + 1)) = []
      ∧ l2.dropWhile (fun r => decide (r.start ≤ a.end_ + 1)) = l2 := by
    cases l2 with
    | nil => simp
    | cons b t =>
      have hb := hl2 b (by simp)
      have hbf : (decide (b.start ≤ a.end_ + 1)) = false := by
        simp only [decide_eq_false_iff_not]
        omega
      rw [List.takeWhile_cons, List.dropWhile_cons, hbf]
      simp
  have hshape : l1 ++ a :: l2 = (l1 ++ [a]) ++ l2 := by simp
  have htake : (l1 ++ a :: l2).takeWhile (fun r => decide (r.start ≤ a.end_ + 1)) =
      l1 ++ [a] := by
    rw [hshape, (takeWhile_all_append _ _ _ hall).1, htail.1, List.append_nil]
  have hdrop : (l1 ++ a :: l2).dropWhile (fun r => decide (r.start ≤ a.end_ + 1)) =
      l2 := by
    rw [hshape, (takeWhile_all_append _ _ _ hall).2, htail.2]
  have hdec := addRangeNoOverlap_decomp (l1 ++ a :: l2) (l1 ++ [a]) l2
    (a.end_ + 1) x (a.end_ + 1) x m hinv hne htake.symm hdrop.symm
  rcases hdec with ⟨-, -, -, -, -, hok3⟩
  have hok := hok3
    (by
      intro a2 ha2
      rw [Option.mem_def, List.getLast?_concat, Option.some.injEq] at ha2
      subst ha2
      omega)
    (by
      intro b hb
      have := hl2 b hb
      omega)
  constructor
  · intro hname
    rw [hok]
    simp only [mergeStep, List.getLast?_concat, List.dropLast_concat]
    rw [if_pos (by exact ⟨by simp, hname.symm⟩)]
    cases l2 with
    | nil => simp
    | cons b t =>
      have hb := hl2 b (by simp)
      simp only [List.head?_cons]
      rw [if_neg]
      intro hcon
      rcases hcon with ⟨hcon1, -⟩
      omega
  · intro hname
    rw [hok]
    simp only [mergeStep, List.getLast?_concat, List.dropLast_concat]
    rw [if_neg (by intro hcon; exact hname (hcon.2.symm))]
    cases l2 with
    | nil => simp
    | cons b t =>
      have hb := hl2 b (by simp)
      simp only [List.head?_cons]
      rw [if_neg]
      · simp
      · intro hcon
        rcases hcon with ⟨hcon1, -⟩
        omega

/-- Witness for C3 (amended) at concrete inputs: `[0,10,n]` absorbing
`[11,20]` with the same name, and keeping `[11,20,q]` separate with a
different name. -/
theorem c3_merge_same_name_witness :
    TimeslotsInvariant [⟨0, 10, ⟨"n", []⟩⟩]
    ∧ addRangeNoOverlap [⟨0, 10, ⟨"n", []⟩⟩] 11 20 ⟨"n", []⟩ =
        .ok [⟨0, 20, ⟨"n", []⟩⟩]
    ∧ addRangeNoOverlap [⟨0, 10, ⟨"n", []⟩⟩] 11 20 ⟨"q", []⟩ =
        .ok [⟨0, 10, ⟨"n", []⟩⟩, ⟨11, 20, ⟨"q", []⟩⟩] := by
  have hsame := (c3_merge_same_name [] [] ⟨0, 10, ⟨"n", []⟩⟩ 20 ⟨"n", []⟩
    ⟨by decide, by decide⟩ (by decide) (by decide) (by decide) (by simp)).1 rfl
  have hdiff := (c3_merge_same_name [] [] ⟨0, 10, ⟨"n", []⟩⟩ 20 ⟨"q", []⟩
    ⟨by decide, by decide⟩ (by decide) (by decide) (by decide) (by simp)).2 (by decide)
  exact ⟨⟨by decide, by decide⟩, by simpa using hsame, by simpa using hdiff⟩

/-! ### Claim C4 -/

theorem getD_insertIdx_lt {α : Type} (l : List α) (p j : Nat) (x d : α)
    (hj : j < p) (hp : p ≤ l.length) :
    (List.insertIdx p x l).getD j d = l.getD j d := by
  have hjl : j < l.length := lt_of_lt_of_le hj hp
  have hlen : (List.insertIdx p x l).length = l.length + 1 :=
    List.length_insertIdx p l hp
  rw [List.getD_eq_getElem _ _ (by omega), List.getD_eq_getElem _ _ hjl]
  exact List.getElem_insertIdx_of_lt l x p j hj hjl

theorem getD_insertIdx_self {α : Type} (l : List α) (p : Nat) (x d : α)
    (hp : p ≤ l.length) :
    (List.insertIdx p x l).getD p d = x := by
  have hlen : (List.insertIdx p x l).length = l.length + 1 :=
    List.length_insertIdx p l hp
  rw [List.getD_eq_getElem _ _ (by omega)]
  exact List.getElem_insertIdx_self l x p hp

theorem getD_eraseIdx_lt {α : Type} (l : List α) (p j : Nat) (d : α)
    (hj : j < p) :
    (l.eraseIdx p).getD j d = l.getD j d := by
  rw [List.getD_eq_getElem?_getD, List.getD_eq_getElem?_getD,
    List.getElem?_eraseIdx, if_pos hj]

theorem getD_set_ne {α : Type} (l : List α) (p j : Nat) (x d : α)
    (h : p ≠ j) :
    (l.set p x).getD j d = l.getD j d := by
  rw [List.getD_eq_getElem?_getD, List.getD_eq_getElem?_getD,
    List.getElem?_set_ne h]

theorem getD_set_self {α : Type} (l : List α) (p : Nat) (x d : α)
    (h : p < l.length) :
    (l.set p x).getD p d = x := by
  rw [List.getD_eq_getElem?_getD, List.getElem?_set_self h]
  rfl

theorem getD_concat_length {α : Type} (L : List α) (x d : α) :
    (L ++ [x]).getD L.length d = x := by
  induction L with
  | nil => rfl
  | cons y ys ih => simp [ih]

/-- Counterexample to C4 as stated: `list.slice()` copies only the address
array, and a left merge executes `a.end = b.end` on the shared left-neighbour
object.  After this successful call the caller's prior snapshot sees that
entry's `end` changed from 10 to 20. -/
theorem c4_counterexample :
    (addRangeNoOverlapRef [⟨0, 10, ⟨"a", []⟩⟩] [0] 11 20 ⟨"a", []⟩).2 = .ok [0]
    ∧ ([(⟨0, 10, ⟨"a", []⟩⟩ : TimeslotRange)].getD 0 default).end_ = 10
    ∧ ((addRangeNoOverlapRef [⟨0, 10, ⟨"a", []⟩⟩] [0] 11 20 ⟨"a", []⟩).1.getD 0
        default).end_ = 20 :=
  ⟨rfl, rfl, rfl⟩

/-- Writing `{ old with end_ := v }` back at the same index changes no entry's
`start` or `meta`, and no other index at all. -/
theorem set_update_end_preserves (l : List TimeslotRange) (p : Nat) (v : Int)
    (hp : p < l.length) :
    ∀ j, ((l.set p { l.getD p default with end_ := v }).getD j default).start =
        (l.getD j default).start
      ∧ ((l.set p { l.getD p default with end_ := v }).getD j default).meta =
        (l.getD j default).meta
      ∧ (p ≠ j →
          (l.set p { l.getD p default with end_ := v }).getD j default =
            l.getD j default) := by
  intro j
  by_cases h : p = j
  · subst h
    rw [getD_set_self _ _ _ _ hp]
    exact ⟨rfl, rfl, fun hcon => absurd rfl hcon⟩
  · rw [getD_set_ne _ _ _ _ _ h]
    exact ⟨rfl, rfl, fun _ => rfl⟩

/-- Claim C4 (amended): the caller's array is never mutated (the call builds
and returns a new array), but entry objects are shared rather than copied:
on a successful call every pre-existing entry keeps its `start` and `meta`,
and the only pre-existing entry that can change at all is the insertion
position's left neighbour `addrs[pos - 1]`, whose `end` field a left merge
overwrites in place. -/
theorem c4_no_array_mutation (heap : List TimeslotRange) (addrs : List Nat)
    (start0 end0 : Int) (m : SlotMeta) (next2 : List Nat)
    (hvalid : ∀ a ∈ addrs, a < heap.length)
    (hok : (addRangeNoOverlapRef heap addrs start0 end0 m).2 = .ok next2) :
    ∀ i, i < heap.length →
      (addRangeNoOverlapRef heap addrs start0 end0 m).1.getD i default =
        heap.getD i default
      ∨ (0 < findPosRef heap addrs (normalizeRange start0 end0).1
         ∧ i = addrs.getD (findPosRef heap addrs (normalizeRange start0 end0).1 - 1) 0
         ∧ ((addRangeNoOverlapRef heap addrs start0 end0 m).1.getD i default).start =
             (heap.getD i default).start
         ∧ ((addRangeNoOverlapRef heap addrs start0 end0 m).1.getD i default).meta =
             (heap.getD i default).meta) := by
  obtain ⟨s, e, hse⟩ : ∃ s e, normalizeRange start0 end0 = (s, e) := ⟨_, _, rfl⟩
  have hs1 : (normalizeRange start0 end0).1 = s := by rw [hse]
  have hs2 : (normalizeRange start0 end0).2 = e := by rw [hse]
  intro i hi
  simp only [addRangeNoOverlapRef, hs1, hs2] at hok ⊢
  set pos := findPosRef heap addrs s with hposdef
  have hposle : pos ≤ addrs.length := by
    rw [hposdef]
    simp only [findPosRef]
    exact bsearchAux_le _ _ _ _ _ (Nat.zero_le _)
  by_cases hc1 : 0 < pos ∧ (heap.getD (addrs.getD (pos - 1) 0) default).end_ ≥ s
  · rw [if_pos hc1] at hok
    exact absurd hok (by simp)
  rw [if_neg hc1] at hok ⊢
  by_cases hc2 : pos < addrs.length ∧ (heap.getD (addrs.getD pos 0) default).start ≤ e
  · rw [if_pos hc2] at hok
    exact absurd hok (by simp)
  rw [if_neg hc2] at hok ⊢
  have hBself : (List.insertIdx pos heap.length addrs).getD pos 0 = heap.length :=
    getD_insertIdx_self addrs pos heap.length 0 hposle
  have hnew : (heap ++ [({ start := s, end_ := e, meta := m } : TimeslotRange)]).getD heap.length default =
      { start := s, end_ := e, meta := m } := getD_concat_length heap _ default
  by_cases hq : 0 < pos
  · rw [if_pos hq]
    have hA : (List.insertIdx pos heap.length addrs).getD (pos - 1) 0 =
        addrs.getD (pos - 1) 0 :=
      getD_insertIdx_lt addrs pos (pos - 1) heap.length 0 (by omega) hposle
    rw [hA]
    have hApos : pos - 1 < addrs.length := by omega
    have hAmem : addrs.getD (pos - 1) 0 ∈ addrs := by
      rw [List.getD_eq_getElem addrs 0 hApos]
      exact List.getElem_mem hApos
    have hAlt : addrs.getD (pos - 1) 0 < heap.length := hvalid _ hAmem
    set A := addrs.getD (pos - 1) 0 with hAdef
    rw [hBself, hnew]
    dsimp only
    by_cases hm1 : ((heap ++ [({ start := s, end_ := e, meta := m } : TimeslotRange)]).getD A
        default).end_ + 1 = s ∧
        ((heap ++ [({ start := s, end_ := e, meta := m } : TimeslotRange)]).getD A default).meta.name =
          m.name
    · rw [if_pos hm1]
      dsimp only
      have hA2 : ((List.insertIdx pos heap.length addrs).eraseIdx pos).getD (pos - 1) 0 =
          A := by
        rw [getD_eraseIdx_lt _ pos (pos - 1) 0 (by omega)]
        exact hA
      rw [hA2]
      have hup : (heap ++ [({ start := s, end_ := e, meta := m } : TimeslotRange)]).getD A default =
          heap.getD A default := List.getD_append heap _ default A hAlt
      have hlen1 : A < (heap ++ [({ start := s, end_ := e, meta := m } : TimeslotRange)]).length := by
        simp only [List.length_append, List.length_cons, List.length_nil]
        omega
      have step1 := set_update_end_preserves
        (heap ++ [({ start := s, end_ := e, meta := m } : TimeslotRange)]) A e hlen1
      have hlen2 : A < ((heap ++ [({ start := s, end_ := e, meta := m } : TimeslotRange)]).set A
          { (heap ++ [({ start := s, end_ := e, meta := m } : TimeslotRange)]).getD A default with
            end_ := e }).length := by
        rw [List.length_set]
        exact hlen1
      by_cases hiA : i = A
      · subst hiA
        right
        refine ⟨hq, rfl, ?_⟩
        split
        · split
          · rw [(set_update_end_preserves _ _ _ hlen2 A).1,
                (set_update_end_preserves _ _ _ hlen2 A).2.1,
                (step1 A).1, (step1 A).2.1, hup]
            exact ⟨rfl, rfl⟩
          · rw [(step1 A).1, (step1 A).2.1, hup]
            exact ⟨rfl, rfl⟩
        · rw [(step1 A).1, (step1 A).2.1, hup]
          exact ⟨rfl, rfl⟩
      · left
        have hne2 : A ≠ i := fun hcon => hiA hcon.symm
        have hbase : (heap ++ [({ start := s, end_ := e, meta := m } : TimeslotRange)]).getD i default =
            heap.getD i default := List.getD_append heap _ default i hi
        split
        · split
          · rw [(set_update_end_preserves _ _ _ hlen2 i).2.2 hne2,
                (step1 i).2.2 hne2, hbase]
          · rw [(step1 i).2.2 hne2, hbase]
        · rw [(step1 i).2.2 hne2, hbase]
    · rw [if_neg hm1]
      dsimp only
      left
      have hbase : (heap ++ [({ start := s, end_ := e, meta := m } : TimeslotRange)]).getD i default =
          heap.getD i default := List.getD_append heap _ default i hi
      split
      · split
        · rw [getD_set_ne _ _ _ _ _ (by omega), hbase]
        · exact hbase
      · exact hbase
  · rw [if_neg hq]
    dsimp only
    rw [hBself]
    left
    have hbase : (heap ++ [({ start := s, end_ := e, meta := m } : TimeslotRange)]).getD i default =
        heap.getD i default := List.getD_append heap _ default i hi
    split
    · split
      · rw [getD_set_ne _ _ _ _ _ (by omega), hbase]
      · exact hbase
    · exact hbase

/-- Witness for C4 (amended) at the counterexample input: hypotheses are
discharged concretely; the left merge case of the disjunction applies. -/
theorem c4_no_array_mutation_witness :
    (∀ a ∈ [0], a < ([⟨0, 10, ⟨"a", []⟩⟩] : List TimeslotRange).length)
    ∧ (addRangeNoOverlapRef [⟨0, 10, ⟨"a", []⟩⟩] [0] 11 20 ⟨"a", []⟩).2 = .ok [0]
    ∧ ((addRangeNoOverlapRef [⟨0, 10, ⟨"a", []⟩⟩] [0] 11 20 ⟨"a", []⟩).1.getD 0 default =
        [(⟨0, 10, ⟨"a", []⟩⟩ : TimeslotRange)].getD 0 default
      ∨ (0 < findPosRef [⟨0, 10, ⟨"a", []⟩⟩] [0] (normalizeRange 11 20).1
         ∧ 0 = [0].getD (findPosRef [⟨0, 10, ⟨"a", []⟩⟩] [0] (normalizeRange 11 20).1 - 1) 0
         ∧ ((addRangeNoOverlapRef [⟨0, 10, ⟨"a", []⟩⟩] [0] 11 20 ⟨"a", []⟩).1.getD 0
              default).start =
             ([(⟨0, 10, ⟨"a", []⟩⟩ : TimeslotRange)].getD 0 default).start
         ∧ ((addRangeNoOverlapRef [⟨0, 10, ⟨"a", []⟩⟩] [0] 11 20 ⟨"a", []⟩).1.getD 0
              default).meta =
             ([(⟨0, 10, ⟨"a", []⟩⟩ : TimeslotRange)].getD 0 default).meta)) :=
  ⟨by decide, rfl,
   c4_no_array_mutation [⟨0, 10, ⟨"a", []⟩⟩] [0] 11 20 ⟨"a", []⟩ [0]
     (by decide) rfl 0 (by decide)⟩

/-! ### Day-scoped persistence: `readStoreForToday` and `writeStore` -/

/-- Field access on a parsed JSON value (`parsed?.field`): `none` both for a
missing key and for a non-object (optional chaining yields `undefined`). -/
def getField (v : JsonValue) (k : String) : Option JsonValue :=
  match v with
  | .obj fields => (fields.find? (fun p => p.1 == k)).map (fun p => p.2)
  | _ => none

/-- JS `===` between a parsed JSON value and a number. -/
def jsNumEq (v : JsonValue) (n : Int) : Bool :=
  match v with
  | .num n2 => n2 == n
  | _ => false

/-- `isSameDate(a, b)`: `a` must be an array of exactly three elements, each
`===` to the corresponding day/month/year component of `b`. -/
def isSameDate (a : Option JsonValue) (b : Int × Int × Int) : Bool :=
  match a with
  | some (.arr [x, y, z]) => jsNumEq x b.1 && jsNumEq y b.2.1 && jsNumEq z b.2.2
  | _ => false

/-- `getTodayArray(now)` as a JSON value: the `[day, month, year]` triple of
the wall clock (the clock is abstracted to this triple). -/
def getTodayArray (today : Int × Int × Int) : JsonValue :=
  .arr [.num today.1, .num today.2.1, .num today.2.2]

/-- `makeDefaultTimeslots(now)`: a fresh store for today with no timeslots,
as its persisted JSON value. -/
def makeDefaultTimeslots (today : Int × Int × Int) : JsonValue :=
  .obj [("date", getTodayArray today), ("timeslots", .arr [])]

/-- Effect of the spread `{ ...obj, k: v }` on a parsed object's fields:
existing bindings of `k` keep their position with the new value, a missing
`k` is appended. -/
def setField (fields : List (String × JsonValue)) (k : String) (v : JsonValue) :
    List (String × JsonValue) :=
  if fields.any (fun p => p.1 == k) then
    fields.map (fun p => if p.1 == k then (k, v) else p)
  else fields ++ [(k, v)]

/-- The persisted blob as seen through `localStorage.getItem` followed by
`JSON.parse`. -/
inductive RawBlob where
  | absent
  | unparsable (raw : String)
  | parsed (v : JsonValue)

/-- `readStoreForToday(now)` on a given blob: reset to the fresh default
store when the blob is absent (`!raw`), unparsable (the catch), or its
`date` is not today; otherwise return `{ ...parsed, date: today, timeslots }`
with `timeslots` defaulted to `[]` unless the stored field is an array.  A
parse result that passes the date check is necessarily an object (only
objects have a `date` field), so the non-object spread branch is
unreachable. -/
def readStoreForToday (blob : RawBlob) (today : Int × Int × Int) : JsonValue :=
  match blob with
  | .absent => makeDefaultTimeslots today
  | .unparsable _ => makeDefaultTimeslots today
  | .parsed v =>
    if isSameDate (getField v "date") today = false then makeDefaultTimeslots today
    else
      let timeslots : JsonValue :=
        match getField v "timeslots" with
        | some (.arr items) => .arr items
        | _ => .arr []
      match v with
      | .obj fields =>
        .obj (setField (setField fields "date" (getTodayArray today)) "timeslots"
          timeslots)
      | _ =>
        .obj (setField (setField [] "date" (getTodayArray today)) "timeslots"
          timeslots)

/-- Modelled from the spec's wording of the reset condition: the blob is
absent, unparsable, or its `date` triple does not equal today's. -/
def storeResetNeeded (blob : RawBlob) (today : Int × Int × Int) : Bool :=
  match blob with
  | .absent => true
  | .unparsable _ => true
  | .parsed v => !(isSameDate (getField v "date") today)

theorem find?_map_replace (k : String) (v : JsonValue) :
    ∀ fields : List (String × JsonValue), fields.any (fun p => p.1 == k) = true →
      ((fields.map (fun p => if p.1 == k then (k, v) else p)).find?
        (fun p => p.1 == k)) = some (k, v) := by
  intro fields
  induction fields with
  | nil => intro h; simp at h
  | cons p ps ih =>
    intro hany
    by_cases hp : (p.1 == k) = true
    · have hpk : p.1 = k := by simpa using hp
      simp [List.find?_cons, hpk]
    · have hp2 : (p.1 == k) = false := by simpa using hp
      have hp3 : ¬(p.1 = k) := by simpa using hp
      have hany2 : ps.any (fun p => p.1 == k) = true := by
        simpa [List.any_cons, hp2] using hany
      have ih2 := ih hany2
      simp only [List.map_cons, List.find?_cons, hp2, hp3, if_false] at ih2 ⊢
      simpa [hp2] using ih2

theorem find?_append_absent (k : String) (v : JsonValue) :
    ∀ fields : List (String × JsonValue), fields.any (fun p => p.1 == k) = false →
      ((fields ++ [(k, v)]).find? (fun p => p.1 == k)) = some (k, v) := by
  intro fields
  induction fields with
  | nil => intro _; simp [List.find?]
  | cons p ps ih =>
    intro hany
    have hp : (p.1 == k) = false := by
      by_cases h : (p.1 == k) = true
      · simp [List.any_cons, h] at hany
      · simpa using h
    have hany2 : ps.any (fun p => p.1 == k) = false := by
      simpa [List.any_cons, hp] using hany
    have ih2 := ih hany2
    simp only [List.cons_append, List.find?_cons, hp] at ih2 ⊢
    simpa [hp] using ih2

theorem find?_setField_self (fields : List (String × JsonValue)) (k : String)
    (v : JsonValue) :
    ((setField fields k v).find? (fun p => p.1 == k)) = some (k, v) := by
  rw [setField]
  split
  · rename_i hany
    exact find?_map_replace k v fields hany
  · rename_i hany
    refine find?_append_absent k v fields ?_
    cases hb : fields.any (fun p => p.1 == k)
    · rfl
    · exact absurd hb hany

theorem find?_map_replace_ne (k : String) (v : JsonValue) (k2 : String)
    (hk : k ≠ k2) :
    ∀ fields : List (String × JsonValue),
      ((fields.map (fun p => if p.1 == k then (k, v) else p)).find?
        (fun p => p.1 == k2)) = fields.find? (fun p => p.1 == k2) := by
  intro fields
  induction fields with
  | nil => simp
  | cons p ps ih =>
    by_cases hp : (p.1 == k) = true
    · have hpk : p.1 = k := by simpa using hp
      have h1 : (k == k2) = false := by simpa using hk
      have h2 : ¬(k = k2) := hk
      have ih2 := ih
      simp only [List.map_cons, List.find?_cons, hpk, h1] at ih2 ⊢
      simpa [h1, h2] using ih2
    · have hp2 : (p.1 == k) = false := by simpa using hp
      have hp3 : ¬(p.1 = k) := by simpa using hp
      by_cases hq : (p.1 == k2) = true
      · have hqk : p.1 = k2 := by simpa using hq
        have hk2 : ¬(k2 = k) := fun h => hk h.symm
        simp [List.find?_cons, hp3, hqk, hk2, hq]
      · have hq2 : (p.1 == k2) = false := by simpa using hq
        have hq3 : ¬(p.1 = k2) := by simpa using hq
        have ih2 := ih
        simp only [List.map_cons, List.find?_cons, hp2, hq2] at ih2 ⊢
        simpa [hp2, hp3, hq2, hq3] using ih2

theorem find?_append_ne (k : String) (v : JsonValue) (k2 : String)
    (hk : k ≠ k2) :
    ∀ fields : List (String × JsonValue),
      ((fields ++ [(k, v)]).find? (fun p => p.1 == k2)) =
        fields.find? (fun p => p.1 == k2) := by
  intro fields
  induction fields with
  | nil =>
    have h1 : (k == k2) = false := by simpa using hk
    simp [List.find?, h1]
  | cons p ps ih =>
    by_cases hq : (p.1 == k2) = true
    · have hqk : p.1 = k2 := by simpa using hq
      simp [List.find?_cons, hqk]
    · have hq2 : (p.1 == k2) = false := by simpa using hq
      have ih2 := ih
      simp only [List.cons_append, List.find?_cons, hq2] at ih2 ⊢
      simpa [hq2] using ih2

theorem find?_setField_ne (fields : List (String × JsonValue)) (k : String)
    (v : JsonValue) (k2 : String) (hk : k ≠ k2) :
    ((setField fields k v).find? (fun p => p.1 == k2)) =
      fields.find? (fun p => p.1 == k2) := by
  rw [setField]
  split
  · exact find?_map_replace_ne k v k2 hk fields
  · exact find?_append_ne k v k2 hk fields

theorem getField_obj_setField_self (fields : List (String × JsonValue))
    (k : String) (v : JsonValue) :
    getField (.obj (setField fields k v)) k = some v := by
  simp [getField, find?_setField_self]

theorem getField_obj_setField_ne (fields : List (String × JsonValue))
    (k : String) (v : JsonValue) (k2 : String) (hk : k ≠ k2) :
    getField (.obj (setField fields k v)) k2 = getField (.obj fields) k2 := by
  simp [getField, find?_setField_ne fields k v k2 hk]

/-! ### Claim C5 -/

theorem isSameDate_obj {v : JsonValue} {today : Int × Int × Int}
    (h : isSameDate (getField v "date") today = true) :
    ∃ fields, v = JsonValue.obj fields := by
  cases v with
  | obj fields => exact ⟨fields, rfl⟩
  | null => simp [getField, isSameDate] at h
  | bool b => simp [getField, isSameDate] at h
  | num n => simp [getField, isSameDate] at h
  | str s2 => simp [getField, isSameDate] at h
  | arr xs => simp [getField, isSameDate] at h

/-- Claim C5: `readStoreForToday` returns the fresh empty store dated today
whenever the blob is absent, unparsable, or its date triple is not today's —
regardless of the blob's other content; otherwise it returns the stored
object with `date` forced to today, `timeslots` replaced by the empty list
unless the stored field is an array, and every other field preserved. -/
theorem c5_read_store_for_today (blob : RawBlob) (today : Int × Int × Int) :
    (storeResetNeeded blob today = true →
      readStoreForToday blob today = makeDefaultTimeslots today)
    ∧ (∀ v, blob = .parsed v → storeResetNeeded blob today = false →
        getField (readStoreForToday blob today) "date" = some (getTodayArray today)
        ∧ getField (readStoreForToday blob today) "timeslots" =
            some (match getField v "timeslots" with
                  | some (.arr items) => .arr items
                  | _ => .arr [])
        ∧ (∀ k, k ≠ "date" → k ≠ "timeslots" →
            getField (readStoreForToday blob today) k = getField v k)) := by
  cases blob with
  | absent =>
    refine ⟨fun _ => rfl, ?_⟩
    intro v hv
    exact absurd hv (by intro h; cases h)
  | unparsable raw =>
    refine ⟨fun _ => rfl, ?_⟩
    intro v hv
    exact absurd hv (by intro h; cases h)
  | parsed v0 =>
    constructor
    · intro h
      have hfalse : isSameDate (getField v0 "date") today = false := by
        simpa [storeResetNeeded] using h
      simp [readStoreForToday, hfalse]
    · intro v hv h
      cases hv
      have htrue : isSameDate (getField v0 "date") today = true := by
        simpa [storeResetNeeded] using h
      obtain ⟨fields, rfl⟩ := isSameDate_obj htrue
      simp only [readStoreForToday]
      rw [if_neg (by simp [htrue])]
      refine ⟨?_, ?_, ?_⟩
      · rw [getField_obj_setField_ne _ "timeslots" _ "date" (by decide)]
        exact getField_obj_setField_self fields "date" (getTodayArray today)
      · exact getField_obj_setField_self _ "timeslots" _
      · intro k hk1 hk2
        rw [getField_obj_setField_ne _ "timeslots" _ k (fun h2 => hk2 h2.symm),
            getField_obj_setField_ne _ "date" _ k (fun h2 => hk1 h2.symm)]

/-- Witness for C5: a blob dated 11/9/2026 read on the 12th resets to the
fresh store; read on the 11th it keeps its fields, with `timeslots`
defaulting to `[]`. -/
theorem c5_read_store_for_today_witness :
    storeResetNeeded
      (.parsed (.obj [("date", .arr [.num 11, .num 9, .num 2026]), ("note", .str "x")]))
      (12, 9, 2026) = true
    ∧ readStoreForToday
        (.parsed (.obj [("date", .arr [.num 11, .num 9, .num 2026]), ("note", .str "x")]))
        (12, 9, 2026) = makeDefaultTimeslots (12, 9, 2026)
    ∧ storeResetNeeded
        (.parsed (.obj [("date", .arr [.num 11, .num 9, .num 2026]), ("note", .str "x")]))
        (11, 9, 2026) = false
    ∧ getField (readStoreForToday
        (.parsed (.obj [("date", .arr [.num 11, .num 9, .num 2026]), ("note", .str "x")]))
        (11, 9, 2026)) "timeslots" = some (.arr []) := by
  refine ⟨rfl, (c5_read_store_for_today _ _).1 rfl, rfl, ?_⟩
  exact ((c5_read_store_for_today
    (.parsed (.obj [("date", .arr [.num 11, .num 9, .num 2026]), ("note", .str "x")]))
    (11, 9, 2026)).2 _ rfl rfl).2.1

/-! ### Claim C8 -/

/-- Typed view of the `TimeslotsStore` object the application saves: a date
triple, the timeslot array, and any passthrough fields. -/
structure TimeslotsStore where
  date : Int × Int × Int
  timeslots : List TimeslotRange
  extra : List (String × JsonValue)

/-- JSON form of a slot's `meta` (`name` plus passthrough fields). -/
def slotMetaToJson (mt : SlotMeta) : JsonValue :=
  .obj (("name", .str mt.name) :: mt.extra)

/-- JSON form of a `TimeslotRange`. -/
def timeslotToJson (r : TimeslotRange) : JsonValue :=
  .obj [("start", .num r.start), ("end", .num r.end_), ("meta", slotMetaToJson r.meta)]

/-- `JSON.stringify(store)`: the store's own `date` and `timeslots`
properties followed by its passthrough fields. -/
def storeToJson (st : TimeslotsStore) : JsonValue :=
  .obj (("date", getTodayArray st.date) ::
        ("timeslots", .arr (st.timeslots.map timeslotToJson)) :: st.extra)

/-- `writeStore(store, ...)`: serializes the whole store and overwrites the
single `"timeslots"` key.  The storage medium is an atomic key-value store
that round-trips the JSON text, so a later `getItem` + `JSON.parse` yields
the same JSON value; the persisted blob is therefore modelled at the JSON
level.  (The two React state setters the source also calls are view
concerns.) -/
def writeStore (st : TimeslotsStore) : RawBlob :=
  .parsed (storeToJson st)

/-- Claim C8: saving a store and loading it back with the wall-clock date
unchanged returns a store whose `timeslots` are deep-equal to the saved
ones. -/
theorem c8_write_read_roundtrip (st : TimeslotsStore) :
    getField (readStoreForToday (writeStore st) st.date) "timeslots" =
      some (.arr (st.timeslots.map timeslotToJson)) := by
  have hdate : getField (storeToJson st) "date" = some (getTodayArray st.date) := by
    simp [storeToJson, getField, List.find?_cons]
  have hsame : isSameDate (getField (storeToJson st) "date") st.date = true := by
    rw [hdate]
    simp [isSameDate, getTodayArray, jsNumEq]
  have hts : getField (storeToJson st) "timeslots" =
      some (.arr (st.timeslots.map timeslotToJson)) := by
    simp [storeToJson, getField, List.find?_cons]
  simp only [writeStore, readStoreForToday]
  rw [if_neg (by simp [hsame])]
  rw [hts]
  simp only [storeToJson]
  exact getField_obj_setField_self _ "timeslots" _

/-! ### Claim C6: colorFromName -/

/-- UTF-16 code units of a string (what `name.length`/`charCodeAt` iterate
over): characters beyond the BMP split into a surrogate pair. -/
def utf16CodeUnits (s : String) : List Nat :=
  (s.data.map fun c =>
    let v := c.toNat
    if v < 65536 then [v]
    else [55296 + (v - 65536) / 1024, 56320 + (v - 65536) % 1024]).flatten

/-- One step of the hash loop `h = ((h << 5) + h) ^ code`, on the unsigned
32-bit pattern of the JS number: `<<` wraps to 32 bits, the `+` is exact on
doubles, and `^` coerces both sides back to int32 — on bit patterns that is
shift and add mod `2^32`, then XOR (the code unit is below `2^16`). -/
def djb2Step (h code : Nat) : Nat :=
  ((h * 32 % 4294967296 + h) % 4294967296) ^^^ code

/-- The rolling hash of `colorFromName`, seeded at 5381, as an unsigned
32-bit pattern. -/
def hashName (name : String) : Nat :=
  (utf16CodeUnits name).foldl djb2Step 5381

/-- `Math.abs(h)` where `h` is the signed 32-bit integer whose unsigned
pattern is the argument. -/
def jsAbs32 (h : Nat) : Nat :=
  if h < 2147483648 then h else 4294967296 - h

/-- The computed pieces of the `hsla(...)` string `colorFromName` formats;
`alphaHundredths` is alpha times 100 (0.8, 0.35 and 0.7 are exact in
hundredths). -/
structure Hsla where
  hue : Nat
  saturation : Nat
  lightness : Nat
  alphaHundredths : Nat
deriving DecidableEq

/-- `colorFromName(name, isPast, isRunning)`: hue from the name hash,
saturation/lightness/alpha selected by the two state flags (an omitted
`isRunning` is falsy, i.e. `false`). -/
def colorFromName (name : String) (isPast : Bool) (isRunning : Bool) : Hsla :=
  { hue := jsAbs32 (hashName name) % 360
  , saturation := if isRunning then 5 else if isPast then 15 else 70
  , lightness := if isRunning then 30 else if isPast then 25 else 55
  , alphaHundredths := if isRunning then 80 else if isPast then 35 else 70 }

/-- Claim C6: the hue equals `abs(h) % 360` for the DJB2-style rolling hash
`h = ((h << 5) + h) XOR code` over the UTF-16 code units of the name, seeded
at 5381 with 32-bit semantics; the `isPast`/`isRunning` flags never change
the hue, only selecting saturation/lightness/alpha from the fixed table
running → (5%, 30%, 0.8), past → (15%, 25%, 0.35), upcoming →
(70%, 55%, 0.7). -/
theorem c6_color_from_name (name : String) (p r p2 r2 : Bool) :
    (colorFromName name p r).hue =
      jsAbs32 ((utf16CodeUnits name).foldl djb2Step 5381) % 360
    ∧ (colorFromName name p r).hue < 360
    ∧ (colorFromName name p r).hue = (colorFromName name p2 r2).hue
    ∧ (colorFromName name p r).saturation = (if r then 5 else if p then 15 else 70)
    ∧ (colorFromName name p r).lightness = (if r then 30 else if p then 25 else 55)
    ∧ (colorFromName name p r).alphaHundredths =
        (if r then 80 else if p then 35 else 70) :=
  ⟨rfl, Nat.mod_lt _ (by omega), rfl, rfl, rfl, rfl⟩

/-! ### Claims C9 and C10: fromTimeStringHHMM -/

/-- Numeric value of a decimal digit character (`Number` on a digit pair is
`10 * d1 + d2`). -/
def digitVal (c : Char) : Nat := c.toNat - 48

/-- `fromTimeStringHHMM(value)`: match strictly `^(\d{2}):(\d{2})$`; on no
match return 0; otherwise clamp the hour field to `[0, 23]` and the minute
field to `[0, 59]` and return `hh * 3600 + mm * 60`. -/
def fromTimeStringHHMM (value : String) : Int :=
  match value.data with
  | [c1, c2, c3, c4, c5] =>
    if c1.isDigit && c2.isDigit && c3 == ':' && c4.isDigit && c5.isDigit then
      let hh : Int := max 0 (min 23 ((10 * digitVal c1 + digitVal c2 : Nat) : Int))
      let mm : Int := max 0 (min 59 ((10 * digitVal c4 + digitVal c5 : Nat) : Int))
      hh * 3600 + mm * 60
    else 0
  | _ => 0

/-- Modelled from the spec: whether `value` matches `^\d{2}:\d{2}$` (JS `\d`
is exactly `[0-9]`, as is `Char.isDigit`). -/
def matchesHHMM (value : String) : Bool :=
  match value.data with
  | [c1, c2, c3, c4, c5] =>
    c1.isDigit && c2.isDigit && c3 == ':' && c4.isDigit && c5.isDigit
  | _ => false

/-- Claim C9: any input not matching `\d{2}:\d{2}` yields 0 (and, the
function being total, no exception). -/
theorem c9_malformed_returns_zero (value : String)
    (h : matchesHHMM value = false) : fromTimeStringHHMM value = 0 := by
  unfold fromTimeStringHHMM
  unfold matchesHHMM at h
  rcases hvd : value.data with - | ⟨c1, - | ⟨c2, - | ⟨c3, - | ⟨c4, - | ⟨c5, - | ⟨c6, rest⟩⟩⟩⟩⟩⟩ <;>
    simp_all

/-- Witness for C9: a malformed input. -/
theorem c9_malformed_returns_zero_witness :
    matchesHHMM "oops" = false ∧ fromTimeStringHHMM "oops" = 0 :=
  ⟨rfl, c9_malformed_returns_zero "oops" rfl⟩

/-- Claim C10: on a matching input with digit values `hh` and `mm` the result
is `min(hh, 23) * 3600 + min(mm, 59) * 60` — out-of-range fields are clamped,
not rejected — so the result always lies in `[0, 86340]`. -/
theorem c10_inrange_clamped (value : String) (c1 c2 c4 c5 : Char)
    (hdata : value.data = [c1, c2, ':', c4, c5])
    (h1 : c1.isDigit = true) (h2 : c2.isDigit = true)
    (h4 : c4.isDigit = true) (h5 : c5.isDigit = true) :
    fromTimeStringHHMM value =
      min 23 ((10 * digitVal c1 + digitVal c2 : Nat) : Int) * 3600 +
      min 59 ((10 * digitVal c4 + digitVal c5 : Nat) : Int) * 60
    ∧ 0 ≤ fromTimeStringHHMM value ∧ fromTimeStringHHMM value ≤ 86340 := by
  have heval : fromTimeStringHHMM value =
      max 0 (min 23 ((10 * digitVal c1 + digitVal c2 : Nat) : Int)) * 3600 +
      max 0 (min 59 ((10 * digitVal c4 + digitVal c5 : Nat) : Int)) * 60 := by
    unfold fromTimeStringHHMM
    rw [hdata]
    simp [h1, h2, h4, h5]
  rw [heval]
  set A : Int := min 23 ((10 * digitVal c1 + digitVal c2 : Nat) : Int) with hA
  set B : Int := min 59 ((10 * digitVal c4 + digitVal c5 : Nat) : Int) with hB
  have hA0 : 0 ≤ A := by
    rw [hA]
    exact le_min (by norm_num) (Int.natCast_nonneg _)
  have hA1 : A ≤ 23 := by
    rw [hA]
    exact min_le_left _ _
  have hB0 : 0 ≤ B := by
    rw [hB]
    exact le_min (by norm_num) (Int.natCast_nonneg _)
  have hB1 : B ≤ 59 := by
    rw [hB]
    exact min_le_left _ _
  rw [max_eq_right hA0, max_eq_right hB0]
  refine ⟨rfl, ?_, ?_⟩ <;> nlinarith

/-- Witness for C10: the spec's own example, `"99:99"` clamps to `86340`. -/
theorem c10_inrange_clamped_witness :
    ("99:99").data = ['9', '9', ':', '9', '9']
    ∧ ('9'.isDigit = true)
    ∧ fromTimeStringHHMM "99:99" = 86340 := by
  refine ⟨rfl, rfl, ?_⟩
  have h := (c10_inrange_clamped "99:99" '9' '9' '9' '9' rfl rfl rfl rfl rfl).1
  rw [h]
  decide
